import Mathlib

/-!
Shallow embedding of `src/courses_parse.py`, a course-catalog extractor for
paginated study-plan documents.  Python string and regex operations are
modelled over `List Char`; the page-extraction primitive (pdfplumber) is
modelled as data carried by a `Page` value, with `Except Unit` capturing a
primitive that may raise.  All definitions are translated from the source;
regular expressions are embedded by their matching semantics on the
whitespace-normalized strings the pipeline feeds them (the only inputs they
ever receive: every line and cell goes through `clean` first, and
`flush_buffer` normalizes its joined buffer before matching).
-/

set_option autoImplicit false

namespace CoursesParse

/-- Python `\s` / `str.strip()` whitespace, ASCII range (the pipeline's
inputs contain no exotic Unicode whitespace). -/
def pyIsSpace (c : Char) : Bool :=
  c = ' ' || c = '\t' || c = '\n' || c = '\r' || c.toNat = 11 || c.toNat = 12

/-- Python regex `\d`: an ASCII decimal digit (`0`-`9`). -/
def isDig (c : Char) : Bool :=
  48 ≤ c.toNat && c.toNat ≤ 57

/-- Numeric value of a digit string, as computed by Python `int` on a
string of decimal digits. -/
def natOfDigits (l : List Char) : Nat :=
  l.foldl (fun n c => 10 * n + (c.toNat - 48)) 0

/-- Python `str.lower`, restricted to ASCII letters and the Russian
Cyrillic letters appearing in the source's patterns and keyword lists. -/
def lowerChar (c : Char) : Char :=
  let n := c.toNat
  if 65 ≤ n ∧ n ≤ 90 then Char.ofNat (n + 32)
  else if 0x410 ≤ n ∧ n ≤ 0x42F then Char.ofNat (n + 32)
  else if n = 0x401 then Char.ofNat 0x451
  else c

def lowerList (l : List Char) : List Char :=
  l.map lowerChar

/-- Python regex word character (`\w`), for `\b` boundaries: ASCII
alphanumerics, underscore, and the Cyrillic block. -/
def isWordChar (c : Char) : Bool :=
  isDig c || (65 ≤ c.toNat && c.toNat ≤ 90) || (97 ≤ c.toNat && c.toNat ≤ 122) ||
    c = '_' || (0x400 ≤ c.toNat && c.toNat ≤ 0x4FF)

/-- `re.sub(r"\s+", " ", ·)`: every maximal whitespace run becomes one
space.  The flag records whether we are inside a run already replaced. -/
def collapseWSAux : Bool → List Char → List Char
  | _, [] => []
  | inRun, c :: cs =>
    if pyIsSpace c then
      if inRun then collapseWSAux true cs
      else ' ' :: collapseWSAux true cs
    else c :: collapseWSAux false cs

/-- Removes the maximal suffix of characters satisfying `p`
(the right half of Python `str.strip(chars)`). -/
def trimRight (p : Char → Bool) : List Char → List Char
  | [] => []
  | c :: cs =>
    let r := trimRight p cs
    if r.isEmpty && p c then [] else c :: r

/-- Python `str.strip(chars)`: drop the maximal run of characters
satisfying `p` from both ends. -/
def stripChars (p : Char → Bool) (l : List Char) : List Char :=
  trimRight p (l.dropWhile p)

/-- Python `str.strip()` (no argument): strip whitespace. -/
def pyStripL (l : List Char) : List Char :=
  stripChars pyIsSpace l

/-- `clean(text)` from the source: `re.sub(r"\s+", " ", text or "").strip()`. -/
def clean (s : String) : String :=
  ⟨pyStripL (collapseWSAux false s.data)⟩

/-- Whitespace-separated tokens of a string (`cur` holds the reversed
characters of the token being read). -/
def tokensAux (cur : List Char) : List Char → List (List Char)
  | [] => if cur.isEmpty then [] else [cur.reverse]
  | c :: cs =>
    if pyIsSpace c then
      if cur.isEmpty then tokensAux [] cs else cur.reverse :: tokensAux [] cs
    else tokensAux (c :: cur) cs

def tokens (l : List Char) : List (List Char) :=
  tokensAux [] l

/-- `" ".join` on token lists. -/
def joinSp : List (List Char) → List Char
  | [] => []
  | [t] => t
  | t :: ts => t ++ ' ' :: joinSp ts

/-- Python `needle in hay` substring test. -/
def containsStr (hay needle : List Char) : Bool :=
  hay.tails.any (needle.isPrefixOf ·)

/-- Consume the literal `pat` from the front of `l`; `none` if it is not
there. -/
def dropLit : List Char → List Char → Option (List Char)
  | [], l => some l
  | _ :: _, [] => none
  | p :: ps, c :: cs => if c = p then dropLit ps cs else none

/-- `RE_POOL_ELECT.search(line)`: case-insensitive search for
`Пул\s+выборн` — the literal `пул`, at least one whitespace, then the
literal `выборн`, anywhere in the line. -/
def RE_POOL_ELECT_search (line : String) : Bool :=
  (lowerList line.data).tails.any fun suf =>
    match dropLit "пул".data suf with
    | some rest =>
        !(rest.takeWhile pyIsSpace).isEmpty &&
          (dropLit "выборн".data (rest.dropWhile pyIsSpace)).isSome
    | none => false

/-- `RE_REQUIRED.search(line)`: case-insensitive substring search for
`Обязательн`. -/
def RE_REQUIRED_search (line : String) : Bool :=
  containsStr (lowerList line.data) "обязательн".data

/-- Attempt of `\d+\s*семестр` at the current position (the digit run
starts here); input is already lowercased. -/
def semHere (l : List Char) : Option Nat :=
  let ds := l.takeWhile isDig
  if ds.isEmpty then none
  else if (dropLit "семестр".data ((l.dropWhile isDig).dropWhile pyIsSpace)).isSome then
    some (natOfDigits ds)
  else none

/-- Left-to-right scan for `RE_SEMESTER_CTX = \b(\d+)\s*семестр` (first
match wins, as `re.search` does); the flag records whether the previous
character was a word character (for the `\b` boundary). -/
def semSearchAux : Bool → List Char → Option Nat
  | _, [] => none
  | prevWord, c :: cs =>
    if !prevWord && isDig c then
      match semHere (c :: cs) with
      | some n => some n
      | none => semSearchAux (isWordChar c) cs
    else semSearchAux (isWordChar c) cs

/-- `RE_SEMESTER_CTX.search(line)` followed by `int(m.group(1))`. -/
def RE_SEMESTER_CTX_search (line : String) : Option Nat :=
  semSearchAux false (lowerList line.data)

/-- `re.search(r"\d+\s+\d+$", line)` on a whitespace-normalized line: the
last token is all digits and the token before it ends in a digit. -/
def endsTwoInts (line : String) : Bool :=
  match (tokens line.data).reverse with
  | d :: t :: _ =>
      (!d.isEmpty && d.all isDig) &&
        (match t.reverse with
         | c :: _ => isDig c
         | [] => false)
  | _ => false

/-- A nonempty all-digit token. -/
def isDigits (l : List Char) : Bool :=
  !l.isEmpty && l.all isDig

/-- The tokens the `name` group captures: the prefix before the two
numbers, minus the optional leading all-digit index — consumed exactly
when at least one further token follows it. -/
def nameTokensOf (pre : List (List Char)) : List (List Char) :=
  match pre with
  | p :: q :: rest => if isDigits p then q :: rest else pre
  | _ => pre

/-- Matching of
`RE_COURSE_LINE = ^\s*(?:(\d+)\s+)?(?P<name>.+?)\s+(?P<ects>\d{1,2})\s+(?P<hours>\d{2,4})\s*$`
against a whitespace-normalized string, by its token-level semantics.
Because `hours` is followed by `\s*$` and preceded by `\s+` it must be
exactly the last token; `ects` is delimited by `\s+` on both sides, so
it must be exactly the second-to-last token; the name is everything
before them, minus the optional leading index — which the (greedy)
optional group consumes exactly when the first token is all digits and at
least one further token precedes `ects` (with a lone digit token, the
engine backtracks and that token becomes the name). -/
def courseLineMatch (s : List Char) : Option (List Char × Nat × Nat) :=
  match (tokens s).reverse with
  | hoursT :: ectsT :: preRev =>
    if isDigits hoursT && decide (2 ≤ hoursT.length) && decide (hoursT.length ≤ 4) &&
       isDigits ectsT && decide (ectsT.length ≤ 2) && !preRev.isEmpty then
      some (joinSp (nameTokensOf preRev.reverse), natOfDigits ectsT, natOfDigits hoursT)
    else none
  | _ => none

/-- The characters stripped off course names: `.strip(" .;—-")`. -/
def isPunctNoise (c : Char) : Bool :=
  c = ' ' || c = '.' || c = ';' || c = '—' || c = '-'

structure CourseItem where
  name : String
  ects : Nat
  hours : Nat
deriving DecidableEq

/-- The string `flush_buffer` builds before matching:
`" ".join(x.strip() for x in buf if x.strip())` then
`re.sub(r"\s+", " ", ·)`. -/
def bufferJoin (buf : List String) : List Char :=
  collapseWSAux false (joinSp ((buf.map fun x => pyStripL x.data).filter (!·.isEmpty)))

/-- `flush_buffer(buf)` from the source: parse the accumulated buffer as
one course row, or `None`. -/
def flush_buffer (buf : List String) : Option CourseItem :=
  if buf.isEmpty then none
  else
    match courseLineMatch (bufferJoin buf) with
    | some (nm, e, h) => some ⟨⟨stripChars isPunctNoise nm⟩, e, h⟩
    | none => none

structure Ctx where
  current_semester : Option Nat
  current_type : String
deriving DecidableEq

/-- Lines 80–98 of the source: block-type markers (pool-of-electives,
required), each also reading a semester from the same line, followed by
the unconditional semester update. -/
def updateContext (ctx : Ctx) (line : String) : Ctx :=
  let ctx1 :=
    if RE_POOL_ELECT_search line then
      match RE_SEMESTER_CTX_search line with
      | some n => { current_semester := some n, current_type := "Выборная" }
      | none => { ctx with current_type := "Выборная" }
    else if RE_REQUIRED_search line then
      match RE_SEMESTER_CTX_search line with
      | some n => { current_semester := some n, current_type := "Обязательная" }
      | none => { ctx with current_type := "Обязательная" }
    else ctx
  match RE_SEMESTER_CTX_search line with
  | some n => { ctx1 with current_semester := some n }
  | none => ctx1

structure CourseRecord where
  program : String
  semester : Option Nat
  type : String
  name : String
  ects : Nat
  hours : Nat
deriving DecidableEq

/-- Stamping an emitted `{name, ects, hours}` item with the parse context
and program identifier (the dict built at lines 107–112 / 132–137). -/
def mkRec (program : String) (ctx : Ctx) (item : CourseItem) : CourseRecord :=
  { program := program, semester := ctx.current_semester, type := ctx.current_type,
    name := item.name, ects := item.ects, hours := item.hours }

/-- The noise/heading keyword list of lines 120–126. -/
def noiseKeywords : List String :=
  ["блок 1", "блок 2", "блок 3", "блок 4",
   "модули", "дисциплины", "практика", "аттестация",
   "универсальная (надпрофессиональная) подготовка",
   "магистратура/аспирантура", "мировоззренческий модуль",
   "иностранный язык", "soft skills", "государственная итоговая аттестация"]

def noiseLine (line : String) : Bool :=
  noiseKeywords.any fun kw => containsStr (lowerList line.data) kw.data

/-- The mutable state threaded through the per-document loop. -/
structure St where
  ctx : Ctx
  buf : List String
  results : List CourseRecord
deriving DecidableEq

/-- The body of the per-line loop (lines 80–127): context update, then
either a collapse attempt (for a line ending in two integers — clearing
the buffer on success and failure alike) or buffering of a non-noise
fragment. -/
def processLine (program : String) (st : St) (line : String) : St :=
  let ctx := updateContext st.ctx line
  if endsTwoInts line then
    match flush_buffer (st.buf ++ [line]) with
    | some item => ⟨ctx, [], st.results ++ [mkRec program ctx item]⟩
    | none => ⟨ctx, [], st.results⟩
  else if noiseLine line then ⟨ctx, st.buf, st.results⟩
  else ⟨ctx, st.buf ++ [line], st.results⟩

/-- The page-boundary flush (lines 129–138).  Note: the buffer is reset
only when the flush produced an item. -/
def pageFlush (program : String) (st : St) : St :=
  match flush_buffer st.buf with
  | some item => ⟨st.ctx, [], st.results ++ [mkRec program st.ctx item]⟩
  | none => st

/-- `cells = [clean(c) for c in row if clean(c)]` (a cell may be `None`). -/
def normCells (row : List (Option String)) : List String :=
  (row.map fun c => clean (c.getD "")).filter (· ≠ "")

/-- `re.sub(r"^\d+\s+", "", name)`: remove a leading digit run and the
following whitespace run, when both are nonempty. -/
def stripLeadingIndex (l : List Char) : List Char :=
  if !(l.takeWhile isDig).isEmpty && !((l.dropWhile isDig).takeWhile pyIsSpace).isEmpty then
    (l.dropWhile isDig).dropWhile pyIsSpace
  else l

/-- `" ".join(cells[:-2])` then index/punctuation stripping (lines 163–165). -/
def tableName (pre : List String) : String :=
  ⟨stripChars isPunctNoise (stripLeadingIndex (joinSp (pre.map String.data)))⟩

/-- Python `int(str)`: optional surrounding whitespace, optional sign, a
nonempty run of (ASCII) digits; anything else raises, modelled as `none`. -/
def pyInt (s : String) : Option Int :=
  match pyStripL s.data with
  | '+' :: ds => if isDigits ds then some (natOfDigits ds : Int) else none
  | '-' :: ds => if isDigits ds then some (-(natOfDigits ds : Int)) else none
  | ds => if isDigits ds then some (natOfDigits ds : Int) else none

/-- The per-row body of the table loop (lines 152–176): at least three
non-empty cells, last two parse as integers, the joined rest (index and
punctuation stripped) is a nonempty name, and both numbers are positive;
any failure silently skips the row. -/
def processTableRow (program : String) (ctx : Ctx) (row : List (Option String)) :
    Option CourseRecord :=
  let cells := normCells row
  if cells.length < 3 then none
  else
    match cells.reverse with
    | hoursC :: ectsC :: preRev =>
      match pyInt ectsC, pyInt hoursC with
      | some e, some h =>
        let name := tableName preRev.reverse
        if name ≠ "" ∧ 0 < e ∧ 0 < h then
          some { program := program, semester := ctx.current_semester,
                 type := ctx.current_type, name := name,
                 ects := e.toNat, hours := h.toNat }
        else none
      | _, _ => none
    | _ => none

/-- One page of the document, as delivered by the extraction primitive:
`extract_text` may raise (`Except.error`) or return `None`/a string;
`extract_tables` may raise or return `None`/a list of cell grids. -/
structure Page where
  textResult : Except Unit (Option String)
  tablesResult : Except Unit (Option (List (List (List (Option String)))))

/-- `text.splitlines()`, modelled as splitting on the newline character. -/
def splitNlAux (cur : List Char) : List Char → List (List Char)
  | [] => [cur.reverse]
  | c :: cs => if c = '\n' then cur.reverse :: splitNlAux [] cs else splitNlAux (c :: cur) cs

/-- `[clean(x) for x in text.splitlines() if clean(x)]`. -/
def pageLines (text : String) : List String :=
  ((splitNlAux [] text.data).map fun l => clean ⟨l⟩).filter (· ≠ "")

/-- The `try/except` around `extract_tables` (lines 142–149): a raising
or `None`-returning extraction degrades to no tables. -/
def pageTables (page : Page) : List (List (List (Option String))) :=
  match page.tablesResult with
  | .error _ => []
  | .ok none => []
  | .ok (some ts) => ts

/-- One iteration of the page loop: text lines through the line loop, the
page-boundary flush, then the table fallback stamped with the context as
it stands after the lines.  `page.extract_text()` is *not* guarded by a
`try`, so a raising text extraction propagates. -/
def processPage (program : String) (st : St) (page : Page) : Except Unit St := do
  let textOpt ← page.textResult
  let lines := pageLines (textOpt.getD "")
  let st1 := lines.foldl (processLine program) st
  let st2 := pageFlush program st1
  let recs := ((pageTables page).map fun tbl =>
    tbl.filterMap (processTableRow program st2.ctx)).flatten
  pure ⟨st2.ctx, st2.buf, st2.results ++ recs⟩

/-- Initial per-document state (lines 69–71). -/
def initSt : St :=
  ⟨⟨none, "Не определено"⟩, [], []⟩

/-- The post-filter noise substrings (line 185). -/
def noiseNameKeywords : List String :=
  ["учебный план", "блок ", "семестр старт", "лист1"]

/-- The drop condition of the post-processing loop (lines 180–187). -/
def dropRecord (r : CourseRecord) : Bool :=
  r.name == "" || decide (r.name.length < 3) ||
    noiseNameKeywords.any fun kw => containsStr (lowerList r.name.data) kw.data

/-- The post-processing loop (lines 178–189): keep, in order, the records
that are not dropped. -/
def postFilter : List CourseRecord → List CourseRecord
  | [] => []
  | r :: rs => if dropRecord r then postFilter rs else r :: postFilter rs

/-- The page loop of `parse_pdf_plan`: process pages in order; an
exception escaping a page iteration aborts the whole parse. -/
def runPages (program : String) : St → List Page → Except Unit St
  | st, [] => .ok st
  | st, p :: ps =>
    match processPage program st p with
    | .ok st1 => runPages program st1 ps
    | .error e => .error e

/-- `parse_pdf_plan(pdf_path, program)`: run the page loop over the
document's pages, then post-filter the collected records. -/
def parse_pdf_plan (pages : List Page) (program : String) :
    Except Unit (List CourseRecord) :=
  match runPages program initSt pages with
  | .ok st => .ok (postFilter st.results)
  | .error e => .error e

/-! ## Token-level lemmas about the string helpers -/

theorem tokensAux_nil (cur : List Char) :
    tokensAux cur [] = if cur.isEmpty then [] else [cur.reverse] := rfl

theorem tokensAux_cons (cur : List Char) (c : Char) (cs : List Char) :
    tokensAux cur (c :: cs) =
      if pyIsSpace c then
        if cur.isEmpty then tokensAux [] cs else cur.reverse :: tokensAux [] cs
      else tokensAux (c :: cur) cs := rfl

theorem collapseWSAux_false_cons (c : Char) (cs : List Char) :
    collapseWSAux false (c :: cs) =
      if pyIsSpace c then ' ' :: collapseWSAux true cs
      else c :: collapseWSAux false cs := rfl

theorem collapseWSAux_true_cons (c : Char) (cs : List Char) :
    collapseWSAux true (c :: cs) =
      if pyIsSpace c then collapseWSAux true cs
      else c :: collapseWSAux false cs := rfl

theorem tokensAux_sep (sep : Char) (hsep : pyIsSpace sep = true) :
    ∀ (xs cur ys : List Char),
      tokensAux cur (xs ++ sep :: ys) = tokensAux cur (xs ++ [sep]) ++ tokensAux [] ys := by
  intro xs
  induction xs with
  | nil =>
    intro cur ys
    rw [List.nil_append, List.nil_append, tokensAux_cons, tokensAux_cons, if_pos hsep,
      if_pos hsep]
    by_cases hc : cur.isEmpty
    · rw [if_pos hc, if_pos hc]; rfl
    · rw [if_neg hc, if_neg hc]; rfl
  | cons x xs ih =>
    intro cur ys
    rw [List.cons_append, List.cons_append, tokensAux_cons, tokensAux_cons]
    by_cases hx : pyIsSpace x
    · rw [if_pos hx, if_pos hx]
      by_cases hc : cur.isEmpty
      · rw [if_pos hc, if_pos hc]; exact ih [] ys
      · rw [if_neg hc, if_neg hc, ih [] ys]; rfl
    · rw [if_neg hx, if_neg hx]; exact ih (x :: cur) ys

theorem tokensAux_trailing_sep (sep : Char) (hsep : pyIsSpace sep = true) :
    ∀ (xs cur : List Char), tokensAux cur (xs ++ [sep]) = tokensAux cur xs := by
  intro xs
  induction xs with
  | nil =>
    intro cur
    rw [List.nil_append, tokensAux_cons, if_pos hsep]
    by_cases hc : cur.isEmpty
    · rw [if_pos hc]; simp [tokensAux_nil, hc]
    · rw [if_neg hc]; simp [tokensAux_nil, hc]
  | cons x xs ih =>
    intro cur
    rw [List.cons_append, tokensAux_cons, tokensAux_cons]
    by_cases hx : pyIsSpace x
    · rw [if_pos hx, if_pos hx]
      by_cases hc : cur.isEmpty
      · rw [if_pos hc, if_pos hc]; exact ih []
      · rw [if_neg hc, if_neg hc, ih []]
    · rw [if_neg hx, if_neg hx]; exact ih (x :: cur)

theorem tokens_append_sep (sep : Char) (hsep : pyIsSpace sep = true)
    (xs ys : List Char) : tokens (xs ++ sep :: ys) = tokens xs ++ tokens ys := by
  unfold tokens
  rw [tokensAux_sep sep hsep, tokensAux_trailing_sep sep hsep]

theorem tokensAux_trailing_ws :
    ∀ ws : List Char, ws.all pyIsSpace = true →
      ∀ (xs cur : List Char), tokensAux cur (xs ++ ws) = tokensAux cur xs := by
  intro ws
  induction ws with
  | nil => intro _ xs cur; rw [List.append_nil]
  | cons w ws ih =>
    intro hws xs cur
    rw [List.all_cons, Bool.and_eq_true] at hws
    have hsplit : xs ++ w :: ws = (xs ++ [w]) ++ ws := by simp
    rw [hsplit, ih hws.2, tokensAux_trailing_sep w hws.1]

theorem tokensAux_dropWhile_space (l : List Char) :
    tokensAux [] (l.dropWhile pyIsSpace) = tokensAux [] l := by
  induction l with
  | nil => rfl
  | cons c cs ih =>
    by_cases hc : pyIsSpace c
    · rw [List.dropWhile_cons_of_pos hc, ih, tokensAux_cons, if_pos hc,
        if_pos (show (List.isEmpty ([] : List Char)) = true from rfl)]
    · rw [List.dropWhile_cons_of_neg hc]

theorem tokensAux_collapse (l : List Char) :
    (∀ cur, tokensAux cur (collapseWSAux false l) = tokensAux cur l) ∧
      tokensAux [] (collapseWSAux true l) = tokensAux [] l := by
  induction l with
  | nil => exact ⟨fun _ => rfl, rfl⟩
  | cons c cs ih =>
    refine ⟨?_, ?_⟩
    · intro cur
      by_cases hc : pyIsSpace c
      · rw [collapseWSAux_false_cons, if_pos hc, tokensAux_cons,
          if_pos (show pyIsSpace ' ' = true from rfl), tokensAux_cons, if_pos hc]
        by_cases hcur : cur.isEmpty
        · rw [if_pos hcur, if_pos hcur, ih.2]
        · rw [if_neg hcur, if_neg hcur, ih.2]
      · rw [collapseWSAux_false_cons, if_neg hc, tokensAux_cons, if_neg hc, tokensAux_cons,
          if_neg hc]
        exact ih.1 (c :: cur)
    · by_cases hc : pyIsSpace c
      · rw [collapseWSAux_true_cons, if_pos hc, ih.2, tokensAux_cons, if_pos hc,
          if_pos (show (List.isEmpty ([] : List Char)) = true from rfl)]
      · rw [collapseWSAux_true_cons, if_neg hc, tokensAux_cons, if_neg hc, tokensAux_cons,
          if_neg hc]
        exact ih.1 [c]

theorem tokens_collapse (l : List Char) :
    tokens (collapseWSAux false l) = tokens l :=
  (tokensAux_collapse l).1 []

theorem trimRight_cons (p : Char → Bool) (c : Char) (cs : List Char) :
    trimRight p (c :: cs) =
      if (trimRight p cs).isEmpty && p c then [] else c :: trimRight p cs := rfl

theorem trimRight_decomp (p : Char → Bool) :
    ∀ l : List Char, ∃ ws, l = trimRight p l ++ ws ∧ ws.all p = true := by
  intro l
  induction l with
  | nil => exact ⟨[], rfl, rfl⟩
  | cons c cs ih =>
    obtain ⟨ws, hcs, hall⟩ := ih
    by_cases h : ((trimRight p cs).isEmpty && p c) = true
    · have hsplit := h
      rw [Bool.and_eq_true] at hsplit
      obtain ⟨h1, h2⟩ := hsplit
      refine ⟨c :: ws, ?_, ?_⟩
      · rw [trimRight_cons, if_pos h, List.nil_append]
        have hcseq : cs = ws := by
          have hnil : trimRight p cs = [] := List.isEmpty_iff.mp h1
          rw [hnil, List.nil_append] at hcs
          exact hcs
        rw [hcseq]
      · rw [List.all_cons, h2, hall]; rfl
    · refine ⟨ws, ?_, hall⟩
      rw [trimRight_cons, if_neg h, List.cons_append]
      exact congrArg (c :: ·) hcs

theorem tokens_pyStripL (l : List Char) : tokens (pyStripL l) = tokens l := by
  unfold pyStripL stripChars
  obtain ⟨ws, hdec, hall⟩ := trimRight_decomp pyIsSpace (l.dropWhile pyIsSpace)
  have h1 : tokens (l.dropWhile pyIsSpace) = tokens l := tokensAux_dropWhile_space l
  calc tokens (trimRight pyIsSpace (l.dropWhile pyIsSpace))
      = tokens (trimRight pyIsSpace (l.dropWhile pyIsSpace) ++ ws) := by
        unfold tokens; rw [tokensAux_trailing_ws ws hall]
    _ = tokens (l.dropWhile pyIsSpace) := by rw [← hdec]
    _ = tokens l := h1

theorem joinSp_cons_cons (t u : List Char) (ts : List (List Char)) :
    joinSp (t :: u :: ts) = t ++ ' ' :: joinSp (u :: ts) := rfl

theorem tokens_joinSp :
    ∀ ps : List (List Char), tokens (joinSp ps) = (ps.map tokens).flatten := by
  intro ps
  induction ps with
  | nil => rfl
  | cons p ps ih =>
    cases ps with
    | nil => simp [joinSp]
    | cons q qs =>
      rw [joinSp_cons_cons, tokens_append_sep ' ' (by decide), ih]
      simp

theorem tokens_nil_eq : tokens [] = [] := rfl

theorem flatten_filter_tokens (ps : List (List Char)) :
    ((ps.filter (!·.isEmpty)).map tokens).flatten = (ps.map tokens).flatten := by
  induction ps with
  | nil => rfl
  | cons p ps ih =>
    rw [List.filter_cons]
    by_cases hp : p.isEmpty
    · have hp0 : p = [] := List.isEmpty_iff.mp hp
      rw [if_neg (by rw [hp]; simp), hp0, List.map_cons, List.flatten_cons, tokens_nil_eq,
        List.nil_append]
      exact ih
    · have hb : (!p.isEmpty) = true := by
        cases hE : p.isEmpty
        · rfl
        · exact absurd hE hp
      rw [if_pos hb, List.map_cons, List.flatten_cons, ih, List.map_cons, List.flatten_cons]

theorem tokens_bufferJoin (buf : List String) :
    tokens (bufferJoin buf) = (buf.map fun x => tokens x.data).flatten := by
  unfold bufferJoin
  rw [tokens_collapse, tokens_joinSp, flatten_filter_tokens, List.map_map]
  congr 1
  exact List.map_congr_left fun x _ => tokens_pyStripL x.data

/-! ## Lemmas about stripping, whitespace discipline and digit values -/

theorem bool_eq_false {b : Bool} (h : ¬ b = true) : b = false := by
  cases b
  · rfl
  · exact absurd rfl h

theorem trimRight_idem (p : Char → Bool) :
    ∀ l : List Char, trimRight p (trimRight p l) = trimRight p l := by
  intro l
  induction l with
  | nil => rfl
  | cons c cs ih =>
    by_cases h : ((trimRight p cs).isEmpty && p c) = true
    · rw [trimRight_cons, if_pos h]; rfl
    · rw [trimRight_cons, if_neg h, trimRight_cons, ih, if_neg h]

theorem dropWhile_head_not (p : Char → Bool) :
    ∀ (l : List Char) (c : Char) (cs : List Char), l.dropWhile p = c :: cs → p c = false := by
  intro l
  induction l with
  | nil => intro c cs h; exact absurd h (by simp)
  | cons x xs ih =>
    intro c cs h
    by_cases hx : p x
    · rw [List.dropWhile_cons_of_pos hx] at h
      exact ih c cs h
    · rw [List.dropWhile_cons_of_neg hx] at h
      injection h with h1 _
      rw [← h1]
      exact bool_eq_false hx

theorem trimRight_head (p : Char → Bool) (x : Char) (xs : List Char) (c : Char) (cs : List Char)
    (h : trimRight p (x :: xs) = c :: cs) : c = x := by
  rw [trimRight_cons] at h
  by_cases hb : ((trimRight p xs).isEmpty && p x) = true
  · rw [if_pos hb] at h; cases h
  · rw [if_neg hb] at h
    injection h with h1 _
    exact h1.symm

theorem stripChars_head_not (p : Char → Bool) (l : List Char) (c : Char) (cs : List Char)
    (h : stripChars p l = c :: cs) : p c = false := by
  unfold stripChars at h
  cases hA : l.dropWhile p with
  | nil => rw [hA] at h; cases h
  | cons a as =>
    rw [hA] at h
    have hc : c = a := trimRight_head p a as c cs h
    rw [hc]
    exact dropWhile_head_not p l a as hA

theorem stripChars_idem (p : Char → Bool) (l : List Char) :
    stripChars p (stripChars p l) = stripChars p l := by
  cases hm : stripChars p l with
  | nil => rfl
  | cons c cs =>
    have hpc : p c = false := stripChars_head_not p l c cs hm
    have hstep : trimRight p (trimRight p (l.dropWhile p)) = trimRight p (l.dropWhile p) :=
      trimRight_idem p _
    unfold stripChars at hm
    rw [hm] at hstep
    unfold stripChars
    rw [List.dropWhile_cons_of_neg (by rw [hpc]; simp)]
    exact hstep

theorem trimRight_getLast_not (p : Char → Bool) :
    ∀ (l : List Char) (c : Char), (trimRight p l).getLast? = some c → p c = false := by
  intro l
  induction l with
  | nil => intro c h; cases h
  | cons x xs ih =>
    intro c h
    by_cases hb : ((trimRight p xs).isEmpty && p x) = true
    · rw [trimRight_cons, if_pos hb] at h; cases h
    · rw [trimRight_cons, if_neg hb] at h
      cases hr : trimRight p xs with
      | nil =>
        rw [hr] at h
        have hcx : c = x := by
          have := h
          simp only [List.getLast?_singleton, Option.some.injEq] at this
          exact this.symm
        rw [hcx]
        rw [hr] at hb
        cases hpx : p x
        · rfl
        · exact absurd (by rw [hpx]; rfl) hb
      | cons r rs =>
        rw [hr, List.getLast?_cons_cons, ← hr] at h
        exact ih c h

theorem stripChars_getLast_not (p : Char → Bool) (l : List Char) (c : Char)
    (h : (stripChars p l).getLast? = some c) : p c = false :=
  trimRight_getLast_not p (l.dropWhile p) c h

theorem trimRight_eq_self (p : Char → Bool) :
    ∀ l : List Char, (∀ c, l.getLast? = some c → p c = false) → trimRight p l = l := by
  intro l
  induction l with
  | nil => intro _; rfl
  | cons x xs ih =>
    intro h
    cases xs with
    | nil =>
      have hx : p x = false := h x (by simp)
      rw [trimRight_cons, if_neg (by rw [hx]; simp)]
      rfl
    | cons y ys =>
      have h2 : ∀ c, (y :: ys).getLast? = some c → p c = false := fun c hc =>
        h c (by rw [List.getLast?_cons_cons]; exact hc)
      have hr : trimRight p (y :: ys) = y :: ys := ih h2
      rw [trimRight_cons, hr, if_neg (by simp)]

theorem dropWhile_eq_self_of_head (p : Char → Bool) (l : List Char)
    (h : ∀ c cs, l = c :: cs → p c = false) : l.dropWhile p = l := by
  cases l with
  | nil => rfl
  | cons c cs => exact List.dropWhile_cons_of_neg (by rw [h c cs rfl]; simp)

/-- Every whitespace character in `l` is a plain space. -/
def onlySpaceWS (l : List Char) : Prop :=
  ∀ c ∈ l, pyIsSpace c = true → c = ' '

theorem mem_trimRight (p : Char → Bool) :
    ∀ (l : List Char) (c : Char), c ∈ trimRight p l → c ∈ l := by
  intro l
  induction l with
  | nil => intro c h; exact h
  | cons x xs ih =>
    intro c h
    rw [trimRight_cons] at h
    by_cases hb : ((trimRight p xs).isEmpty && p x) = true
    · rw [if_pos hb] at h; cases h
    · rw [if_neg hb] at h
      rcases List.mem_cons.mp h with h1 | h2
      · exact List.mem_cons.mpr (Or.inl h1)
      · exact List.mem_cons.mpr (Or.inr (ih c h2))

theorem mem_dropWhile (p : Char → Bool) :
    ∀ (l : List Char) (c : Char), c ∈ l.dropWhile p → c ∈ l := by
  intro l
  induction l with
  | nil => intro c h; exact h
  | cons x xs ih =>
    intro c h
    by_cases hx : p x
    · rw [List.dropWhile_cons_of_pos hx] at h
      exact List.mem_cons.mpr (Or.inr (ih c h))
    · rw [List.dropWhile_cons_of_neg hx] at h
      exact h

theorem mem_stripChars (p : Char → Bool) (l : List Char) (c : Char)
    (h : c ∈ stripChars p l) : c ∈ l :=
  mem_dropWhile p l c (mem_trimRight p (l.dropWhile p) c h)

theorem collapseWSAux_onlySpace :
    ∀ (l : List Char) (b : Bool), onlySpaceWS (collapseWSAux b l) := by
  intro l
  induction l with
  | nil => intro b c hc _; cases hc
  | cons x xs ih =>
    intro b c hc hs
    by_cases hx : pyIsSpace x
    · cases b
      · rw [collapseWSAux_false_cons, if_pos hx] at hc
        rcases List.mem_cons.mp hc with h1 | h2
        · exact h1
        · exact ih true c h2 hs
      · rw [collapseWSAux_true_cons, if_pos hx] at hc
        exact ih true c hc hs
    · cases b
      · rw [collapseWSAux_false_cons, if_neg hx] at hc
        rcases List.mem_cons.mp hc with h1 | h2
        · rw [h1] at hs; exact absurd hs hx
        · exact ih false c h2 hs
      · rw [collapseWSAux_true_cons, if_neg hx] at hc
        rcases List.mem_cons.mp hc with h1 | h2
        · rw [h1] at hs; exact absurd hs hx
        · exact ih false c h2 hs

theorem clean_onlySpace (s : String) : onlySpaceWS (clean s).data := by
  intro c hc hs
  have hc2 : c ∈ stripChars pyIsSpace (collapseWSAux false s.data) := hc
  exact collapseWSAux_onlySpace s.data false c
    (mem_stripChars pyIsSpace _ c hc2) hs

theorem joinSp_onlySpace :
    ∀ ps : List (List Char), (∀ t ∈ ps, onlySpaceWS t) → onlySpaceWS (joinSp ps) := by
  intro ps
  induction ps with
  | nil => intro _ c hc _; cases hc
  | cons p ps ih =>
    intro hall c hc hs
    cases ps with
    | nil => exact hall p (by simp) c hc hs
    | cons q qs =>
      rw [joinSp_cons_cons] at hc
      rcases List.mem_append.mp hc with h1 | h2
      · exact hall p (by simp) c h1 hs
      · rcases List.mem_cons.mp h2 with h3 | h4
        · exact h3
        · exact ih (fun t ht => hall t (by simp [ht])) c h4 hs

theorem tokensAux_no_space :
    ∀ (l cur : List Char), (∀ c ∈ cur, pyIsSpace c = false) →
      ∀ t ∈ tokensAux cur l, ∀ c ∈ t, pyIsSpace c = false := by
  intro l
  induction l with
  | nil =>
    intro cur hcur t ht c hct
    rw [tokensAux_nil] at ht
    by_cases hc : cur.isEmpty
    · rw [if_pos hc] at ht; cases ht
    · rw [if_neg hc] at ht
      have hteq : t = cur.reverse := by simpa using ht
      rw [hteq] at hct
      exact hcur c (List.mem_reverse.mp hct)
  | cons x xs ih =>
    intro cur hcur t ht c hct
    rw [tokensAux_cons] at ht
    by_cases hx : pyIsSpace x
    · rw [if_pos hx] at ht
      by_cases hcm : cur.isEmpty
      · rw [if_pos hcm] at ht
        exact ih [] (fun d hd => by cases hd) t ht c hct
      · rw [if_neg hcm] at ht
        rcases List.mem_cons.mp ht with h1 | h2
        · rw [h1] at hct
          exact hcur c (List.mem_reverse.mp hct)
        · exact ih [] (fun d hd => by cases hd) t h2 c hct
    · rw [if_neg hx] at ht
      refine ih (x :: cur) ?_ t ht c hct
      intro d hd
      rcases List.mem_cons.mp hd with h1 | h2
      · rw [h1]; exact bool_eq_false hx
      · exact hcur d h2

theorem tokens_no_space (l : List Char) :
    ∀ t ∈ tokens l, ∀ c ∈ t, pyIsSpace c = false :=
  tokensAux_no_space l [] (fun _ hd => by cases hd)

theorem natOfDigits_foldl_lt :
    ∀ (ds : List Char) (acc : Nat), ds.all isDig = true →
      ds.foldl (fun n c => 10 * n + (c.toNat - 48)) acc < (acc + 1) * 10 ^ ds.length := by
  intro ds
  induction ds with
  | nil =>
    intro acc _
    simp
  | cons c cs ih =>
    intro acc hall
    rw [List.all_cons, Bool.and_eq_true] at hall
    have hd : c.toNat - 48 ≤ 9 := by
      have h2 := hall.1
      unfold isDig at h2
      rw [Bool.and_eq_true] at h2
      have h3 : c.toNat ≤ 57 := of_decide_eq_true h2.2
      omega
    rw [List.foldl_cons, List.length_cons]
    calc cs.foldl (fun n c => 10 * n + (c.toNat - 48)) (10 * acc + (c.toNat - 48))
        < (10 * acc + (c.toNat - 48) + 1) * 10 ^ cs.length := ih _ hall.2
      _ ≤ ((acc + 1) * 10) * 10 ^ cs.length := by
          exact Nat.mul_le_mul_right _ (by omega)
      _ = (acc + 1) * 10 ^ (cs.length + 1) := by ring

theorem natOfDigits_lt (ds : List Char) (h : ds.all isDig = true) :
    natOfDigits ds < 10 ^ ds.length := by
  have hb := natOfDigits_foldl_lt ds 0 h
  simpa [natOfDigits] using hb

/-! ## Inversion and equation lemmas for the row matcher -/

theorem courseLineMatch_eq (s : List Char) (hoursT ectsT : List Char)
    (preRev : List (List Char)) (h : (tokens s).reverse = hoursT :: ectsT :: preRev) :
    courseLineMatch s =
      if isDigits hoursT && decide (2 ≤ hoursT.length) && decide (hoursT.length ≤ 4) &&
         isDigits ectsT && decide (ectsT.length ≤ 2) && !preRev.isEmpty then
        some (joinSp (nameTokensOf preRev.reverse), natOfDigits ectsT, natOfDigits hoursT)
      else none := by
  unfold courseLineMatch
  rw [h]

theorem endsTwoInts_eq (L : String) (d t : List Char) (rest : List (List Char))
    (h : (tokens L.data).reverse = d :: t :: rest) :
    endsTwoInts L =
      ((!d.isEmpty && d.all isDig) &&
        (match t.reverse with
         | c :: _ => isDig c
         | [] => false)) := by
  unfold endsTwoInts
  rw [h]

theorem isDigits_rev_head (a : List Char) (h : isDigits a = true) :
    ∃ c cs, a.reverse = c :: cs ∧ isDig c = true := by
  unfold isDigits at h
  rw [Bool.and_eq_true] at h
  obtain ⟨hne, hall⟩ := h
  cases ha : a.reverse with
  | nil =>
    exfalso
    have ha0 : a = [] := by simpa using congrArg List.reverse ha
    rw [ha0] at hne
    exact absurd hne (by simp)
  | cons c cs =>
    refine ⟨c, cs, rfl, ?_⟩
    have hc : c ∈ a := by
      have hmem : c ∈ a.reverse := by rw [ha]; exact List.mem_cons_self c cs
      exact List.mem_reverse.mp hmem
    exact List.all_eq_true.mp hall c hc

theorem flush_buffer_trailing (buf : List String) (L : String) (pre : List (List Char))
    (a b : List Char)
    (hT : tokens L.data = pre ++ [a, b]) (hpre : pre ≠ [])
    (ha : isDigits a = true) (ha2 : a.length ≤ 2)
    (hb : isDigits b = true) (hb2 : 2 ≤ b.length) (hb4 : b.length ≤ 4) :
    ∃ nm : List Char,
      flush_buffer (buf ++ [L]) =
        some ⟨⟨stripChars isPunctNoise nm⟩, natOfDigits a, natOfDigits b⟩ := by
  have htok : tokens (bufferJoin (buf ++ [L])) =
      ((buf.map fun x => tokens x.data).flatten ++ pre) ++ [a, b] := by
    rw [tokens_bufferJoin, List.map_append, List.flatten_append]
    simp [hT]
  have hrev : (tokens (bufferJoin (buf ++ [L]))).reverse =
      b :: a :: ((buf.map fun x => tokens x.data).flatten ++ pre).reverse := by
    rw [htok]; simp
  have hm : courseLineMatch (bufferJoin (buf ++ [L])) =
      some (joinSp (nameTokensOf (((buf.map fun x => tokens x.data).flatten ++ pre).reverse.reverse)),
        natOfDigits a, natOfDigits b) := by
    rw [courseLineMatch_eq _ _ _ _ hrev]
    rw [if_pos ?_]
    rw [hb, decide_eq_true hb2, decide_eq_true hb4, ha, decide_eq_true ha2]
    have hne : ((((buf.map fun x => tokens x.data).flatten ++ pre).reverse).isEmpty) = false := by
      cases hp : ((buf.map fun x => tokens x.data).flatten ++ pre).reverse with
      | nil =>
        exfalso
        have hnil : (buf.map fun x => tokens x.data).flatten ++ pre = [] := by
          simpa using congrArg List.reverse hp
        exact hpre (List.append_eq_nil.mp hnil).2
      | cons _ _ => rfl
    rw [hne]
    rfl
  refine ⟨joinSp (nameTokensOf (((buf.map fun x => tokens x.data).flatten ++ pre).reverse.reverse)), ?_⟩
  unfold flush_buffer
  rw [if_neg (by simp), hm]

theorem courseLineMatch_inv (s : List Char) (nm : List Char) (e hV : Nat)
    (h : courseLineMatch s = some (nm, e, hV)) :
    ∃ ts, nm = joinSp ts ∧ (∀ t ∈ ts, t ∈ tokens s) ∧
      ∃ ectsT hoursT, e = natOfDigits ectsT ∧ hV = natOfDigits hoursT ∧
        ectsT.all isDig = true ∧ ectsT.length ≤ 2 ∧
        hoursT.all isDig = true ∧ hoursT.length ≤ 4 := by
  cases hr : (tokens s).reverse with
  | nil => unfold courseLineMatch at h; rw [hr] at h; cases h
  | cons hoursT rest =>
    cases rest with
    | nil => unfold courseLineMatch at h; rw [hr] at h; cases h
    | cons ectsT preRev =>
      rw [courseLineMatch_eq s hoursT ectsT preRev hr] at h
      by_cases hcond : (isDigits hoursT && decide (2 ≤ hoursT.length) &&
          decide (hoursT.length ≤ 4) && isDigits ectsT && decide (ectsT.length ≤ 2) &&
          !preRev.isEmpty) = true
      · rw [if_pos hcond] at h
        rw [Option.some.injEq] at h
        have hnm : nm = joinSp (nameTokensOf preRev.reverse) := congrArg Prod.fst h |>.symm
        have he : e = natOfDigits ectsT := congrArg (fun x => x.2.1) h |>.symm
        have hh : hV = natOfDigits hoursT := congrArg (fun x => x.2.2) h |>.symm
        rw [Bool.and_eq_true, Bool.and_eq_true, Bool.and_eq_true, Bool.and_eq_true,
          Bool.and_eq_true] at hcond
        obtain ⟨⟨⟨⟨⟨hd1, hd2⟩, hd3⟩, hd4⟩, hd5⟩, _⟩ := hcond
        have htoks : tokens s = preRev.reverse ++ [ectsT, hoursT] := by
          have := congrArg List.reverse hr
          simpa using this
        refine ⟨nameTokensOf preRev.reverse, hnm, ?_, ectsT, hoursT, he, hh, ?_, ?_, ?_, ?_⟩
        · intro t ht
          have hmem : t ∈ preRev.reverse := by
            unfold nameTokensOf at ht
            cases hp : preRev.reverse with
            | nil => rw [hp] at ht; exact ht
            | cons p rest2 =>
              cases rest2 with
              | nil => rw [hp] at ht; exact ht
              | cons q rest3 =>
                rw [hp] at ht
                have ht2 : t ∈ (if isDigits p = true then q :: rest3 else p :: q :: rest3) := ht
                by_cases hdig : isDigits p = true
                · rw [if_pos hdig] at ht2
                  exact List.mem_cons_of_mem p ht2
                · rw [if_neg hdig] at ht2
                  exact ht2
          rw [htoks]
          exact List.mem_append_left _ hmem
        · unfold isDigits at hd4
          rw [Bool.and_eq_true] at hd4
          exact hd4.2
        · exact of_decide_eq_true hd5
        · unfold isDigits at hd1
          rw [Bool.and_eq_true] at hd1
          exact hd1.2
        · exact of_decide_eq_true hd3
      · rw [if_neg hcond] at h
        cases h

theorem flush_buffer_inv (buf : List String) (item : CourseItem)
    (h : flush_buffer buf = some item) :
    ∃ nm, item.name = (⟨stripChars isPunctNoise nm⟩ : String) ∧
      ∃ ts, nm = joinSp ts ∧ (∀ t ∈ ts, t ∈ tokens (bufferJoin buf)) ∧
      ∃ ectsT hoursT, item.ects = natOfDigits ectsT ∧ item.hours = natOfDigits hoursT ∧
        ectsT.all isDig = true ∧ ectsT.length ≤ 2 ∧
        hoursT.all isDig = true ∧ hoursT.length ≤ 4 := by
  unfold flush_buffer at h
  by_cases hb : buf.isEmpty
  · rw [if_pos hb] at h; cases h
  · rw [if_neg hb] at h
    cases hm : courseLineMatch (bufferJoin buf) with
    | none => rw [hm] at h; cases h
    | some trip =>
      obtain ⟨nm, e, hV⟩ := trip
      rw [hm, Option.some.injEq] at h
      obtain ⟨ts, hts, hmem, rest⟩ := courseLineMatch_inv _ nm e hV hm
      refine ⟨nm, ?_, ts, hts, hmem, ?_⟩
      · rw [← h]
      · obtain ⟨ectsT, hoursT, he, hh, h1, h2, h3, h4⟩ := rest
        refine ⟨ectsT, hoursT, ?_, ?_, h1, h2, h3, h4⟩
        · rw [← h]; exact he
        · rw [← h]; exact hh

/-! ## Structural lemmas for the page driver -/

theorem processLine_ctx (program : String) (st : St) (line : String) :
    (processLine program st line).ctx = updateContext st.ctx line := by
  simp only [processLine]
  by_cases hE : endsTwoInts line = true
  · rw [if_pos hE]
    cases hf : flush_buffer (st.buf ++ [line]) <;> rfl
  · rw [if_neg hE]
    by_cases hN : noiseLine line = true
    · rw [if_pos hN]
    · rw [if_neg hN]

theorem pageFlush_ctx (program : String) (st : St) :
    (pageFlush program st).ctx = st.ctx := by
  unfold pageFlush
  cases hf : flush_buffer st.buf <;> rfl

theorem foldl_processLine_ctx (program : String) :
    ∀ (ls : List String) (st : St),
      (ls.foldl (processLine program) st).ctx =
        ls.foldl (fun c l => updateContext c l) st.ctx := by
  intro ls
  induction ls with
  | nil => intro st; rfl
  | cons l ls ih =>
    intro st
    rw [List.foldl_cons, List.foldl_cons, ih, processLine_ctx]

theorem processPage_ok (program : String) (st : St) (txo : Option String)
    (tb : Except Unit (Option (List (List (List (Option String)))))) :
    processPage program st ⟨.ok txo, tb⟩ =
      .ok ⟨(pageFlush program ((pageLines (txo.getD "")).foldl (processLine program) st)).ctx,
           (pageFlush program ((pageLines (txo.getD "")).foldl (processLine program) st)).buf,
           (pageFlush program ((pageLines (txo.getD "")).foldl (processLine program) st)).results ++
             ((pageTables ⟨.ok txo, tb⟩).map fun tbl =>
               tbl.filterMap (processTableRow program
                 (pageFlush program ((pageLines (txo.getD "")).foldl (processLine program) st)).ctx)).flatten⟩ :=
  rfl

theorem processPage_error (program : String) (st : St)
    (tb : Except Unit (Option (List (List (List (Option String)))))) :
    processPage program st ⟨.error (), tb⟩ = .error () := rfl

theorem processTableRow_inv (program : String) (ctx : Ctx) (row : List (Option String))
    (r : CourseRecord) (h : processTableRow program ctx row = some r) :
    ∃ preRev ectsC hoursC e hV,
      (normCells row).reverse = hoursC :: ectsC :: preRev ∧
      pyInt ectsC = some e ∧ pyInt hoursC = some hV ∧
      tableName preRev.reverse ≠ "" ∧ 0 < e ∧ 0 < hV ∧
      r = ⟨program, ctx.current_semester, ctx.current_type,
           tableName preRev.reverse, e.toNat, hV.toNat⟩ := by
  unfold processTableRow at h
  by_cases h3 : (normCells row).length < 3
  · rw [if_pos h3] at h; cases h
  · rw [if_neg h3] at h
    cases hrev : (normCells row).reverse with
    | nil => rw [hrev] at h; cases h
    | cons hoursC rest =>
      cases rest with
      | nil => rw [hrev] at h; cases h
      | cons ectsC preRev =>
        rw [hrev] at h
        have h2 : (match pyInt ectsC, pyInt hoursC with
            | some e, some hV =>
              if tableName preRev.reverse ≠ "" ∧ 0 < e ∧ 0 < hV then
                some (⟨program, ctx.current_semester, ctx.current_type,
                       tableName preRev.reverse, e.toNat, hV.toNat⟩ : CourseRecord)
              else none
            | _, _ => none) = some r := h
        cases he : pyInt ectsC with
        | none => rw [he] at h2; cases h2
        | some e =>
          cases hh : pyInt hoursC with
          | none => rw [he, hh] at h2; cases h2
          | some hV =>
            rw [he, hh] at h2
            have h4 : (if tableName preRev.reverse ≠ "" ∧ 0 < e ∧ 0 < hV then
                some (⟨program, ctx.current_semester, ctx.current_type,
                       tableName preRev.reverse, e.toNat, hV.toNat⟩ : CourseRecord)
              else none) = some r := h2
            by_cases hcond : tableName preRev.reverse ≠ "" ∧ 0 < e ∧ 0 < hV
            · rw [if_pos hcond] at h4
              rw [Option.some.injEq] at h4
              exact ⟨preRev, ectsC, hoursC, e, hV, rfl, he, hh, hcond.1, hcond.2.1,
                hcond.2.2, h4.symm⟩
            · rw [if_neg hcond] at h4
              cases h4

/-! ## Name discipline of emitted records -/

/-- A record name as both creation paths build it: already stripped of
punctuation noise and containing no whitespace other than plain spaces. -/
def NiceName (r : CourseRecord) : Prop :=
  onlySpaceWS r.name.data ∧ stripChars isPunctNoise r.name.data = r.name.data

theorem flush_buffer_nice (buf : List String) (item : CourseItem)
    (h : flush_buffer buf = some item) :
    onlySpaceWS item.name.data ∧
      stripChars isPunctNoise item.name.data = item.name.data := by
  obtain ⟨nm, hname, ts, hts, hmem, -⟩ := flush_buffer_inv buf item h
  have hsp : onlySpaceWS nm := by
    rw [hts]
    refine joinSp_onlySpace ts ?_
    intro t ht c hc hs
    have := tokens_no_space (bufferJoin buf) t (hmem t ht) c hc
    rw [this] at hs
    cases hs
  constructor
  · rw [hname]
    intro c hc hs
    exact hsp c (mem_stripChars _ _ _ hc) hs
  · rw [hname]
    exact stripChars_idem _ _

theorem mem_stripLeadingIndex (l : List Char) (c : Char)
    (h : c ∈ stripLeadingIndex l) : c ∈ l := by
  unfold stripLeadingIndex at h
  by_cases hcond : (!(l.takeWhile isDig).isEmpty &&
      !((l.dropWhile isDig).takeWhile pyIsSpace).isEmpty) = true
  · rw [if_pos hcond] at h
    exact mem_dropWhile _ _ _ (mem_dropWhile _ _ _ h)
  · rw [if_neg hcond] at h
    exact h

theorem normCells_onlySpace (row : List (Option String)) :
    ∀ cell ∈ normCells row, onlySpaceWS cell.data := by
  intro cell hcell
  unfold normCells at hcell
  have hmem := (List.mem_filter.mp hcell).1
  obtain ⟨c, -, hc⟩ := List.mem_map.mp hmem
  rw [← hc]
  exact clean_onlySpace _

theorem tableName_nice (pre : List String) (h : ∀ cell ∈ pre, onlySpaceWS cell.data) :
    onlySpaceWS (tableName pre).data ∧
      stripChars isPunctNoise (tableName pre).data = (tableName pre).data := by
  have hjoin : onlySpaceWS (joinSp (pre.map String.data)) := by
    refine joinSp_onlySpace _ ?_
    intro t ht
    obtain ⟨x, hx, hxe⟩ := List.mem_map.mp ht
    rw [← hxe]
    exact h x hx
  constructor
  · intro c hc hs
    have hc2 : c ∈ stripLeadingIndex (joinSp (pre.map String.data)) :=
      mem_stripChars _ _ _ hc
    exact hjoin c (mem_stripLeadingIndex _ _ hc2) hs
  · exact stripChars_idem _ _

theorem processTableRow_nice (program : String) (ctx : Ctx) (row : List (Option String))
    (r : CourseRecord) (h : processTableRow program ctx row = some r) : NiceName r := by
  obtain ⟨preRev, ectsC, hoursC, e, hV, hrev, -, -, -, -, -, hr⟩ :=
    processTableRow_inv program ctx row r h
  have hcells : ∀ cell ∈ preRev.reverse, onlySpaceWS cell.data := by
    intro cell hcell
    refine normCells_onlySpace row cell ?_
    have : normCells row = preRev.reverse ++ [ectsC, hoursC] := by
      have := congrArg List.reverse hrev
      simpa using this
    rw [this]
    exact List.mem_append_left _ hcell
  have hn := tableName_nice preRev.reverse hcells
  rw [hr]
  exact ⟨hn.1, hn.2⟩

/-- All records accumulated so far have disciplined names. -/
def ResultsNice (st : St) : Prop :=
  ∀ r ∈ st.results, NiceName r

theorem processLine_nice (program : String) (st : St) (line : String)
    (h : ResultsNice st) : ResultsNice (processLine program st line) := by
  intro r hr
  simp only [processLine] at hr
  by_cases hE : endsTwoInts line = true
  · rw [if_pos hE] at hr
    cases hf : flush_buffer (st.buf ++ [line]) with
    | none => rw [hf] at hr; exact h r hr
    | some item =>
      rw [hf] at hr
      rcases List.mem_append.mp hr with h1 | h2
      · exact h r h1
      · have hre : r = mkRec program (updateContext st.ctx line) item := by simpa using h2
        rw [hre]
        exact flush_buffer_nice _ _ hf
  · rw [if_neg hE] at hr
    by_cases hN : noiseLine line = true
    · rw [if_pos hN] at hr; exact h r hr
    · rw [if_neg hN] at hr; exact h r hr

theorem pageFlush_nice (program : String) (st : St)
    (h : ResultsNice st) : ResultsNice (pageFlush program st) := by
  intro r hr
  unfold pageFlush at hr
  cases hf : flush_buffer st.buf with
  | none => rw [hf] at hr; exact h r hr
  | some item =>
    rw [hf] at hr
    rcases List.mem_append.mp hr with h1 | h2
    · exact h r h1
    · have hre : r = mkRec program st.ctx item := by simpa using h2
      rw [hre]
      exact flush_buffer_nice _ _ hf

theorem foldl_processLine_nice (program : String) :
    ∀ (ls : List String) (st : St), ResultsNice st →
      ResultsNice (ls.foldl (processLine program) st) := by
  intro ls
  induction ls with
  | nil => intro st h; exact h
  | cons l ls ih =>
    intro st h
    rw [List.foldl_cons]
    exact ih _ (processLine_nice program st l h)

theorem processPage_nice (program : String) (st : St) (page : Page) (st1 : St)
    (hok : processPage program st page = .ok st1) (h : ResultsNice st) :
    ResultsNice st1 := by
  obtain ⟨tx, tb⟩ := page
  cases tx with
  | error e =>
    cases e
    rw [processPage_error] at hok
    cases hok
  | ok txo =>
    rw [processPage_ok] at hok
    rw [Except.ok.injEq] at hok
    rw [← hok]
    intro r hr
    rcases List.mem_append.mp hr with h1 | h2
    · exact pageFlush_nice program _ (foldl_processLine_nice program _ st h) r h1
    · obtain ⟨l2, hl2, hrl2⟩ := List.mem_flatten.mp h2
      obtain ⟨tbl, -, htbl⟩ := List.mem_map.mp hl2
      rw [← htbl] at hrl2
      obtain ⟨row, -, hrow⟩ := List.mem_filterMap.mp hrl2
      exact processTableRow_nice program _ row r hrow

theorem runPages_nice (program : String) :
    ∀ (pages : List Page) (st st1 : St), runPages program st pages = .ok st1 →
      ResultsNice st → ResultsNice st1 := by
  intro pages
  induction pages with
  | nil =>
    intro st st1 h hn
    injection h with h1
    rw [← h1]
    exact hn
  | cons p ps ih =>
    intro st st1 h hn
    unfold runPages at h
    cases hp : processPage program st p with
    | ok st2 =>
      rw [hp] at h
      exact ih st2 st1 h (processPage_nice program st p st2 hp hn)
    | error e =>
      rw [hp] at h
      cases h

theorem mem_postFilter :
    ∀ (rs : List CourseRecord) (r : CourseRecord), r ∈ postFilter rs →
      r ∈ rs ∧ dropRecord r = false := by
  intro rs
  induction rs with
  | nil => intro r h; cases h
  | cons x xs ih =>
    intro r h
    unfold postFilter at h
    by_cases hd : dropRecord x = true
    · rw [if_pos hd] at h
      obtain ⟨h1, h2⟩ := ih r h
      exact ⟨List.mem_cons_of_mem x h1, h2⟩
    · rw [if_neg hd] at h
      rcases List.mem_cons.mp h with h1 | h2
      · rw [h1]
        exact ⟨List.mem_cons_self x xs, bool_eq_false hd⟩
      · obtain ⟨h3, h4⟩ := ih r h2
        exact ⟨List.mem_cons_of_mem x h3, h4⟩

/-- Python `str.strip()` at the `String` level. -/
def pyStrip (s : String) : String :=
  ⟨pyStripL s.data⟩

theorem not_space_of_not_punct {c : Char} (h : isPunctNoise c = false)
    (hos : pyIsSpace c = true → c = ' ') : pyIsSpace c = false := by
  cases hs : pyIsSpace c
  · rfl
  · exfalso
    have hcs := hos hs
    rw [hcs] at h
    have : isPunctNoise ' ' = true := rfl
    rw [this] at h
    cases h

theorem pyStrip_of_nice (name : String) (h1 : onlySpaceWS name.data)
    (h2 : stripChars isPunctNoise name.data = name.data) : pyStrip name = name := by
  have key : pyStripL name.data = name.data := by
    unfold pyStripL stripChars
    cases hn : name.data with
    | nil => rfl
    | cons c cs =>
      have hhead : isPunctNoise c = false :=
        stripChars_head_not isPunctNoise name.data c cs (by rw [h2]; exact hn)
      have hmemc : c ∈ name.data := by rw [hn]; exact List.mem_cons_self c cs
      have hheadsp : pyIsSpace c = false :=
        not_space_of_not_punct hhead (fun hs => h1 c hmemc hs)
      rw [List.dropWhile_cons_of_neg (by rw [hheadsp]; simp)]
      refine trimRight_eq_self pyIsSpace (c :: cs) ?_
      intro d hd
      have hd2 : name.data.getLast? = some d := by rw [hn]; exact hd
      have hdp : isPunctNoise d = false :=
        stripChars_getLast_not isPunctNoise name.data d (by rw [h2]; exact hd2)
      have hne : name.data ≠ [] := by rw [hn]; simp
      have hmemd : d ∈ name.data := by
        have hgl := List.getLast?_eq_getLast name.data hne
        rw [hgl, Option.some.injEq] at hd2
        rw [← hd2]
        exact List.getLast_mem hne
      exact not_space_of_not_punct hdp (fun hs => h1 d hmemd hs)
  unfold pyStrip
  rw [key]

/-! ## Helper lemmas about the context update -/

theorem updateContext_sem_some (ctx : Ctx) (line : String) (n : Nat)
    (h : RE_SEMESTER_CTX_search line = some n) :
    (updateContext ctx line).current_semester = some n := by
  unfold updateContext
  rw [h]

theorem updateContext_sem_none (ctx : Ctx) (line : String)
    (h : RE_SEMESTER_CTX_search line = none) :
    (updateContext ctx line).current_semester = ctx.current_semester := by
  unfold updateContext
  rw [h]
  by_cases hp : RE_POOL_ELECT_search line = true
  · rw [if_pos hp]
  · rw [if_neg hp]
    by_cases hr : RE_REQUIRED_search line = true
    · rw [if_pos hr]
    · rw [if_neg hr]

/-! ## The claims -/

/-- Claim C1, counterexample: the line `"абв 5 7"` ends in the two
consecutive integers 5 and 7 and has the non-numeric token `абв` before
them, and it does trigger a collapse attempt — yet no record is produced,
because the hour number must have 2–4 digits in `RE_COURSE_LINE`. -/
theorem C1_counterexample :
    endsTwoInts "абв 5 7" = true ∧
    tokens ("абв 5 7").data = [("абв").data] ++ [("5").data, ("7").data] ∧
    flush_buffer ["абв 5 7"] = none ∧
    (processLine "p" initSt "абв 5 7").results = [] :=
  ⟨rfl, rfl, rfl, rfl⟩

/-- Claim C1 (amended): for every normalized line whose tokens end in two
consecutive integers of the regex's widths — a 1–2-digit credit and a
2–4-digit hour number — with at least one non-numeric-leading token
before them, processing the line through the row accumulator (after any
buffered fragments) emits exactly one record whose `ects` and `hours`
equal those two trailing integers, clearing the buffer. -/
theorem C1_rowAccumulator_trailing_ints (program : String) (st : St) (L : String)
    (pre : List (List Char)) (a b : List Char)
    (hT : tokens L.data = pre ++ [a, b])
    (hw : ∃ t ∈ pre, ∃ c cs, t = c :: cs ∧ isDig c = false)
    (ha : isDigits a = true) (ha2 : a.length ≤ 2)
    (hb : isDigits b = true) (hb2 : 2 ≤ b.length) (hb4 : b.length ≤ 4) :
    endsTwoInts L = true ∧
    ∃ name : String,
      processLine program st L =
        ⟨updateContext st.ctx L, [],
         st.results ++ [⟨program, (updateContext st.ctx L).current_semester,
                        (updateContext st.ctx L).current_type, name,
                        natOfDigits a, natOfDigits b⟩]⟩ := by
  have hpre : pre ≠ [] := by
    obtain ⟨t, ht, -⟩ := hw
    intro hnil
    rw [hnil] at ht
    cases ht
  have hE : endsTwoInts L = true := by
    obtain ⟨c, cs, hcrev, hc⟩ := isDigits_rev_head a ha
    rw [endsTwoInts_eq L b a pre.reverse (by rw [hT]; simp)]
    rw [hcrev]
    show ((!b.isEmpty && b.all isDig) && isDig c) = true
    have hb2' : (!b.isEmpty && b.all isDig) = true := hb
    rw [hb2', hc]
    rfl
  refine ⟨hE, ?_⟩
  obtain ⟨nm, hf⟩ := flush_buffer_trailing st.buf L pre a b hT hpre ha ha2 hb hb2 hb4
  refine ⟨⟨stripChars isPunctNoise nm⟩, ?_⟩
  simp only [processLine]
  rw [if_pos hE, hf]
  rfl

/-- Claim C1 witness: a concrete instance of the amended claim on the
line `"Матан 5 180"` with an empty buffer. -/
theorem C1_rowAccumulator_trailing_ints_witness :
    endsTwoInts "Матан 5 180" = true ∧
    ∃ name : String,
      processLine "p" initSt "Матан 5 180" =
        ⟨updateContext initSt.ctx "Матан 5 180", [],
         initSt.results ++ [⟨"p", (updateContext initSt.ctx "Матан 5 180").current_semester,
                        (updateContext initSt.ctx "Матан 5 180").current_type, name,
                        natOfDigits ("5").data, natOfDigits ("180").data⟩]⟩ :=
  C1_rowAccumulator_trailing_ints "p" initSt "Матан 5 180"
    [("Матан").data] ("5").data ("180").data rfl
    ⟨("Матан").data, by simp, 'М', ("атан").data, rfl, rfl⟩
    rfl (by decide) rfl (by decide) (by decide)

/-- Claim C2, counterexample: after a page whose only (non-noise) line is
the fragment `"Методы машинного"`, the page-boundary flush fails and the
buffer is NOT cleared — the fragment survives into the next page,
contradicting the claim that every flush attempt leaves the buffer
empty. -/
theorem C2_counterexample :
    flush_buffer ["Методы машинного"] = none ∧
    processPage "p" initSt ⟨.ok (some "Методы машинного"), .ok (some [])⟩ =
      .ok ⟨⟨none, "Не определено"⟩, ["Методы машинного"], []⟩ :=
  ⟨rfl, rfl⟩

/-- Claim C2 (amended): every in-line collapse attempt (a line ending in
two integers) clears the buffer whether or not it produced a record, and
a successful page-boundary flush clears it too; but a failed
page-boundary flush leaves the whole state — including the buffer —
untouched, so the fragments carry over into the next page. -/
theorem C2_buffer_clearing :
    (∀ program st line, endsTwoInts line = true → (processLine program st line).buf = []) ∧
    (∀ program st item, flush_buffer st.buf = some item → (pageFlush program st).buf = []) ∧
    (∀ program st, flush_buffer st.buf = none → pageFlush program st = st) := by
  refine ⟨?_, ?_, ?_⟩
  · intro program st line hE
    simp only [processLine]
    rw [if_pos hE]
    cases hf : flush_buffer (st.buf ++ [line]) <;> rfl
  · intro program st item hf
    unfold pageFlush
    rw [hf]
  · intro program st hf
    unfold pageFlush
    rw [hf]

/-- Claim C2 witness: concrete instances of all three amended clauses. -/
theorem C2_buffer_clearing_witness :
    (processLine "p" initSt "абв 5 144").buf = [] ∧
    (pageFlush "p" ⟨⟨none, "Не определено"⟩, ["абв 5 144"], []⟩).buf = [] ∧
    pageFlush "p" initSt = initSt :=
  ⟨C2_buffer_clearing.1 "p" initSt "абв 5 144" rfl,
   C2_buffer_clearing.2.1 "p" ⟨⟨none, "Не определено"⟩, ["абв 5 144"], []⟩ ⟨"абв", 5, 144⟩ rfl,
   C2_buffer_clearing.2.2 "p" initSt rfl⟩

/-- Claim C3, counterexample: the line `"абв 0 144"` produces, through
the line path, a final post-filtered record with `ects = 0` — the
post-filter checks only the name, so the claimed invariant
`ects > 0 ∧ hours > 0` fails for line-path records. -/
theorem C3_counterexample :
    parse_pdf_plan [⟨.ok (some "абв 0 144"), .ok (some [])⟩] "p" =
      .ok [⟨"p", none, "Не определено", "абв", 0, 144⟩] ∧
    (⟨"p", none, "Не определено", "абв", 0, 144⟩ : CourseRecord).ects = 0 :=
  ⟨rfl, rfl⟩

/-- Claim C3 (amended): every record in the final post-filtered output
has a name of length at least 3 that is invariant under trimming; and
every record emitted by the table path has `ects > 0` and `hours > 0` —
but the line path can emit records with `ects = 0` or `hours = 0` that
survive the filter. -/
theorem C3_record_invariants :
    (∀ (pages : List Page) (program : String) (rs : List CourseRecord),
        parse_pdf_plan pages program = .ok rs →
        ∀ r ∈ rs, 3 ≤ r.name.length ∧ pyStrip r.name = r.name) ∧
    (∀ (program : String) (ctx : Ctx) (row : List (Option String)) (r : CourseRecord),
        processTableRow program ctx row = some r → 0 < r.ects ∧ 0 < r.hours) := by
  constructor
  · intro pages program rs hok r hr
    unfold parse_pdf_plan at hok
    cases hrun : runPages program initSt pages with
    | error e => rw [hrun] at hok; cases hok
    | ok st =>
      rw [hrun, Except.ok.injEq] at hok
      rw [← hok] at hr
      obtain ⟨hmem, hdrop⟩ := mem_postFilter st.results r hr
      have hnice : NiceName r :=
        runPages_nice program pages initSt st hrun (fun r0 hr0 => by cases hr0) r hmem
      have hlen : 3 ≤ r.name.length := by
        unfold dropRecord at hdrop
        rw [Bool.or_eq_false_iff, Bool.or_eq_false_iff] at hdrop
        have hd2 := of_decide_eq_false hdrop.1.2
        omega
      exact ⟨hlen, pyStrip_of_nice r.name hnice.1 hnice.2⟩
  · intro program ctx row r h
    obtain ⟨preRev, ectsC, hoursC, e, hV, -, -, -, -, hpe, hph, hr⟩ :=
      processTableRow_inv program ctx row r h
    rw [hr]
    refine ⟨?_, ?_⟩
    · show 0 < e.toNat
      omega
    · show 0 < hV.toNat
      omega

/-- Claim C3 witness: concrete instances of both amended clauses. -/
theorem C3_record_invariants_witness :
    (3 ≤ ("Линал" : String).length ∧ pyStrip "Линал" = "Линал") ∧
    ((0 : Nat) < 3 ∧ (0 : Nat) < 108) :=
  ⟨C3_record_invariants.1 [⟨.ok (some "Линал 5 180"), .ok (some [])⟩] "p"
      [⟨"p", none, "Не определено", "Линал", 5, 180⟩] rfl
      ⟨"p", none, "Не определено", "Линал", 5, 180⟩ (List.mem_cons_self _ _),
   C3_record_invariants.2 "p" ⟨none, "Не определено"⟩
      [some "Физика", some "3", some "108"]
      ⟨"p", none, "Не определено", "Физика", 3, 108⟩ rfl⟩

/-- Claim C4 (confirmed): the wrapped-name page
`["Методы машинного", "обучения 4 144"]` buffers the first fragment,
collapses on the trailing-numeric line, joins the fragments with single
spaces, and the whole parse emits exactly that one record. -/
theorem C4_wrapped_line_scenario :
    (processLine "p" initSt "Методы машинного").buf = ["Методы машинного"] ∧
    parse_pdf_plan [⟨.ok (some "Методы машинного\nобучения 4 144"), .ok (some [])⟩] "p" =
      .ok [⟨"p", none, "Не определено", "Методы машинного обучения", 4, 144⟩] :=
  ⟨rfl, rfl⟩

/-- Claim C5, counterexample: the table row `["—", "3", "108"]` has three
non-empty normalized cells whose last two parse as the positive integers
3 and 108, yet no record is emitted — the name collapses to the empty
string after punctuation stripping, a skip condition the claim omits. -/
theorem C5_counterexample :
    (normCells [some "—", some "3", some "108"]).length = 3 ∧
    pyInt "3" = some 3 ∧ (0 : Int) < 3 ∧
    pyInt "108" = some 108 ∧ (0 : Int) < 108 ∧
    processTableRow "p" ⟨none, "Не определено"⟩ [some "—", some "3", some "108"] = none :=
  ⟨rfl, rfl, by decide, rfl, by decide, rfl⟩

/-- Claim C5 (amended): for a table row with at least 3 non-empty
normalized cells whose last two cells parse as positive integers, a
record with those numbers is emitted exactly when the name — the join of
the preceding cells, with a leading ordinal index and punctuation noise
stripped — is non-empty; with an empty name the row is silently skipped. -/
theorem C5_table_row_extraction (program : String) (ctx : Ctx) (row : List (Option String))
    (pre : List String) (c1 c2 : String) (e hV : Int)
    (hc : normCells row = pre ++ [c1, c2]) (hpre : pre ≠ [])
    (he : pyInt c1 = some e) (hh : pyInt c2 = some hV)
    (hpos1 : 0 < e) (hpos2 : 0 < hV) :
    (tableName pre ≠ "" →
      processTableRow program ctx row =
        some ⟨program, ctx.current_semester, ctx.current_type, tableName pre,
              e.toNat, hV.toNat⟩) ∧
    (tableName pre = "" → processTableRow program ctx row = none) := by
  have hlen : ¬ (normCells row).length < 3 := by
    rw [hc, List.length_append]
    cases pre with
    | nil => exact absurd rfl hpre
    | cons x xs => simp
  have hrev : (normCells row).reverse = c2 :: c1 :: pre.reverse := by
    rw [hc]; simp
  have heq0 : processTableRow program ctx row =
      (match pyInt c1, pyInt c2 with
        | some e', some h' =>
          if tableName pre.reverse.reverse ≠ "" ∧ 0 < e' ∧ 0 < h' then
            some (⟨program, ctx.current_semester, ctx.current_type,
                   tableName pre.reverse.reverse, e'.toNat, h'.toNat⟩ : CourseRecord)
          else none
        | _, _ => none) := by
    simp only [processTableRow]
    rw [if_neg hlen, hrev]
  rw [List.reverse_reverse] at heq0
  rw [he, hh] at heq0
  have heq : processTableRow program ctx row =
      (if tableName pre ≠ "" ∧ 0 < e ∧ 0 < hV then
        some (⟨program, ctx.current_semester, ctx.current_type, tableName pre,
               e.toNat, hV.toNat⟩ : CourseRecord)
      else none) := heq0
  constructor
  · intro hne
    rw [heq, if_pos ⟨hne, hpos1, hpos2⟩]
  · intro hne
    rw [heq, if_neg (fun hcontra => hcontra.1 hne)]

/-- Claim C5 witness: the row `["01", "Операционные системы", "3", "108"]`
yields the record with the leading ordinal stripped. -/
theorem C5_table_row_extraction_witness :
    processTableRow "p" ⟨none, "Не определено"⟩
        [some "01", some "Операционные системы", some "3", some "108"] =
      some ⟨"p", none, "Не определено", "Операционные системы", 3, 108⟩ :=
  (C5_table_row_extraction "p" ⟨none, "Не определено"⟩
      [some "01", some "Операционные системы", some "3", some "108"]
      ["01", "Операционные системы"] "3" "108" 3 108 rfl (by simp) rfl rfl
      (by decide) (by decide)).1 (by decide)

/-- Claim C6 (confirmed): the semester check runs unconditionally on
every processed line — the context after any line (noise, marker or
collapse-trigger alike) is `updateContext`, and `updateContext` sets
`current_semester` to the matched number whenever `RE_SEMESTER_CTX`
matches, leaving it unchanged otherwise. -/
theorem C6_semester_unconditional :
    (∀ program st line, (processLine program st line).ctx = updateContext st.ctx line) ∧
    (∀ ctx line n, RE_SEMESTER_CTX_search line = some n →
        (updateContext ctx line).current_semester = some n) ∧
    (∀ ctx line, RE_SEMESTER_CTX_search line = none →
        (updateContext ctx line).current_semester = ctx.current_semester) :=
  ⟨processLine_ctx, updateContext_sem_some, updateContext_sem_none⟩

/-- Claim C6 witness: a noise line with a semester marker, an
elective-pool marker line and a matchless line, each concrete. -/
theorem C6_semester_unconditional_witness :
    (processLine "p" initSt "Практика 2 семестр").ctx =
      updateContext initSt.ctx "Практика 2 семестр" ∧
    (updateContext ⟨none, "Не определено"⟩ "Пул выборных дисциплин 2 семестр").current_semester =
      some 2 ∧
    (updateContext ⟨some 7, "Не определено"⟩ "Философия").current_semester = some 7 :=
  ⟨C6_semester_unconditional.1 "p" initSt "Практика 2 семестр",
   C6_semester_unconditional.2.1 ⟨none, "Не определено"⟩ "Пул выборных дисциплин 2 семестр" 2 rfl,
   C6_semester_unconditional.2.2 ⟨some 7, "Не определено"⟩ "Философия" rfl⟩

/-- Claim C7 (confirmed): the post-filter is exactly a filter — it drops
a record if and only if its name is empty, shorter than 3 characters, or
its lowercased name contains one of the four structural-noise substrings;
survivors are unaltered and their order is preserved (the result is a
sublist of the input). -/
theorem C7_postFilter_characterization (rs : List CourseRecord) :
    postFilter rs = rs.filter (fun r =>
      !(r.name == "" || decide (r.name.length < 3) ||
        containsStr (lowerList r.name.data) ("учебный план").data ||
        containsStr (lowerList r.name.data) ("блок ").data ||
        containsStr (lowerList r.name.data) ("семестр старт").data ||
        containsStr (lowerList r.name.data) ("лист1").data)) ∧
    (postFilter rs).Sublist rs := by
  have hdrop : ∀ r : CourseRecord, dropRecord r =
      (r.name == "" || decide (r.name.length < 3) ||
        containsStr (lowerList r.name.data) ("учебный план").data ||
        containsStr (lowerList r.name.data) ("блок ").data ||
        containsStr (lowerList r.name.data) ("семестр старт").data ||
        containsStr (lowerList r.name.data) ("лист1").data) := by
    intro r
    unfold dropRecord noiseNameKeywords
    simp only [List.any_cons, List.any_nil, Bool.or_false, Bool.or_assoc]
  have hfilter : postFilter rs = rs.filter (fun r => !dropRecord r) := by
    induction rs with
    | nil => rfl
    | cons r rs ih =>
      show (if dropRecord r = true then postFilter rs else r :: postFilter rs) = _
      by_cases hd : dropRecord r = true
      · rw [if_pos hd, ih, List.filter_cons, if_neg (by simp [hd])]
      · rw [if_neg hd, ih, List.filter_cons, if_pos (by simp [bool_eq_false hd])]
  constructor
  · rw [hfilter]
    congr 1
    funext r
    rw [hdrop r]
  · rw [hfilter]
    exact List.filter_sublist rs

/-- Claim C8, counterexample: a raising text extraction propagates out of
the per-document parse — `page.extract_text()` is not wrapped in a
`try`, so the parse returns the error instead of degrading. -/
theorem C8_counterexample :
    parse_pdf_plan [⟨.error (), .ok (some [])⟩] "p" = .error () := rfl

/-- Claim C8 (amended): a text extraction *returning* nothing degrades to
an empty page, and a *raising* table extraction degrades to an empty
table list — but a raising text extraction propagates out of the
per-page (hence per-document) parse. -/
theorem C8_extraction_degradation :
    (∀ program st tb, processPage program st ⟨.ok none, tb⟩ =
        processPage program st ⟨.ok (some ""), tb⟩) ∧
    (∀ program st tx, processPage program st ⟨tx, .error ()⟩ =
        processPage program st ⟨tx, .ok (some [])⟩) ∧
    (∀ program st tb, processPage program st ⟨.error (), tb⟩ = .error ()) := by
  refine ⟨fun program st tb => rfl, ?_, fun program st tb => rfl⟩
  intro program st tx
  cases tx with
  | ok txo => rfl
  | error e => cases e; rfl

/-- Claim C9 (confirmed): the parse context is updated only by a page's
text lines — table rows are stamped with the context but never change
it; the context after a page is the fold of `updateContext` over the
page's lines alone (independent of the page's tables), and every
table-path record of the page carries exactly that context. -/
theorem C9_context_text_only :
    (∀ program ctx row r, processTableRow program ctx row = some r →
        r.semester = ctx.current_semester ∧ r.type = ctx.current_type) ∧
    (∀ program st txo tb tb',
        (processPage program st ⟨.ok txo, tb⟩).map St.ctx =
          (processPage program st ⟨.ok txo, tb'⟩).map St.ctx) ∧
    (∀ program st txo tb st1, processPage program st ⟨.ok txo, tb⟩ = .ok st1 →
        st1.ctx = (pageLines (txo.getD "")).foldl (fun c l => updateContext c l) st.ctx ∧
        st1.results =
          (pageFlush program ((pageLines (txo.getD "")).foldl (processLine program) st)).results ++
            ((pageTables ⟨.ok txo, tb⟩).map fun tbl =>
              tbl.filterMap (processTableRow program st1.ctx)).flatten) := by
  refine ⟨?_, ?_, ?_⟩
  · intro program ctx row r h
    obtain ⟨preRev, ectsC, hoursC, e, hV, -, -, -, -, -, -, hr⟩ :=
      processTableRow_inv program ctx row r h
    rw [hr]
    exact ⟨rfl, rfl⟩
  · intro program st txo tb tb'
    rw [processPage_ok, processPage_ok]
    rfl
  · intro program st txo tb st1 hok
    rw [processPage_ok, Except.ok.injEq] at hok
    constructor
    · rw [← hok]
      show (pageFlush program ((pageLines (txo.getD "")).foldl (processLine program) st)).ctx = _
      rw [pageFlush_ctx, foldl_processLine_ctx]
    · rw [← hok]

/-- Claim C9 witness: a concrete table-row stamping and a concrete page
whose context comes from its single text line. -/
theorem C9_context_text_only_witness :
    ((⟨"p", some 3, "Выборная", "Физика", 3, 108⟩ : CourseRecord).semester =
        (⟨some 3, "Выборная"⟩ : Ctx).current_semester ∧
      (⟨"p", some 3, "Выборная", "Физика", 3, 108⟩ : CourseRecord).type =
        (⟨some 3, "Выборная"⟩ : Ctx).current_type) ∧
    ((⟨⟨some 2, "Не определено"⟩, ["2 семестр"], []⟩ : St).ctx =
        (pageLines ((some "2 семестр" : Option String).getD "")).foldl
          (fun c l => updateContext c l) initSt.ctx ∧
      (⟨⟨some 2, "Не определено"⟩, ["2 семестр"], []⟩ : St).results =
        (pageFlush "p" ((pageLines ((some "2 семестр" : Option String).getD "")).foldl
            (processLine "p") initSt)).results ++
          ((pageTables ⟨.ok (some "2 семестр"), .ok (some [])⟩).map fun tbl =>
            tbl.filterMap (processTableRow "p"
              (⟨⟨some 2, "Не определено"⟩, ["2 семестр"], []⟩ : St).ctx)).flatten) :=
  ⟨C9_context_text_only.1 "p" ⟨some 3, "Выборная"⟩ [some "Физика", some "3", some "108"]
      ⟨"p", some 3, "Выборная", "Физика", 3, 108⟩ rfl,
   C9_context_text_only.2.2 "p" initSt (some "2 семестр") (.ok (some []))
      ⟨⟨some 2, "Не определено"⟩, ["2 семестр"], []⟩ rfl⟩

/-- Claim C10 (confirmed): every record the line path's collapse emits
has `ects ≤ 99` (at most two digits) and `hours ≤ 9999` (at most four
digits), because of the digit-width limits of `RE_COURSE_LINE`; the
table path has no upper bound — it emits, e.g., `ects = 100` and
`hours = 10000`. -/
theorem C10_line_path_bounds :
    (∀ (buf : List String) (item : CourseItem), flush_buffer buf = some item →
        item.ects ≤ 99 ∧ item.hours ≤ 9999) ∧
    processTableRow "p" ⟨none, "Не определено"⟩ [some "абвг", some "100", some "10000"] =
      some ⟨"p", none, "Не определено", "абвг", 100, 10000⟩ := by
  constructor
  · intro buf item h
    obtain ⟨nm, -, ts, -, -, ectsT, hoursT, he, hh, h1, h2, h3, h4⟩ := flush_buffer_inv buf item h
    constructor
    · rw [he]
      have hlt := natOfDigits_lt ectsT h1
      have hpow : (10 : Nat) ^ ectsT.length ≤ 10 ^ 2 := Nat.pow_le_pow_right (by omega) h2
      have h100 : (10 : Nat) ^ 2 = 100 := by norm_num
      omega
    · rw [hh]
      have hlt := natOfDigits_lt hoursT h3
      have hpow : (10 : Nat) ^ hoursT.length ≤ 10 ^ 4 := Nat.pow_le_pow_right (by omega) h4
      have h10000 : (10 : Nat) ^ 4 = 10000 := by norm_num
      omega
  · rfl

/-- Claim C10 witness: the bound applied to a concrete collapse. -/
theorem C10_line_path_bounds_witness :
    (⟨"абв", 5, 144⟩ : CourseItem).ects ≤ 99 ∧
      (⟨"абв", 5, 144⟩ : CourseItem).hours ≤ 9999 :=
  C10_line_path_bounds.1 ["абв 5 144"] ⟨"абв", 5, 144⟩ rfl

end CoursesParse
